import Mathlib

/-!
A verification development for the `sync-jsr-json` manifest synchronization
library (file `packages/sync-jsr-json/src/lib/sync-jsr-json.ts`).

The TypeScript code is shallowly embedded as follows.

* JSON documents are modelled after the interfaces `PackageJson` and
  `JsrJson` declared in the source.  Fields that the code never touches are
  collected in an abstract `others` association list; arbitrary non-string
  JSON values are modelled by the opaque-tag constructor
  `JsonVal.nonString`.  `JSON.parse (JSON.stringify x) = x` holds for plain
  data, so a file on disk is modelled directly by its parsed document (or by
  the states "absent" / "malformed JSON").
* JavaScript `Map` objects and plain objects built by `JSON.parse` are
  modelled as association lists whose lookup is last-write-wins (the `Map`
  constructor and duplicate JSON keys both keep the later entry).
* The regular expression
  `/^jsr:(@?[\w-]+\/[\w-]+)@([\^~><=]*)([\d.]+)/` used by `parseJsrImport`
  is implemented by maximal-munch scanning.  Every quantified group in the
  expression is followed by a character that the group's class excludes, so
  the backtracking regex engine and maximal munch agree.
* `async` / `Promise.all` code is embedded as sequential state passing:
  each package only reads and writes files inside its own directory, and
  `package.json` files, which are shared through the package map, are never
  written, so serialization does not change any observable result.
* Fallible operations return `Except SyncError`; logging is a pure side
  channel with no influence on results and is not modelled.
-/

/-- A JSON value appearing as the value of an `imports` entry or of an
untouched extra field: either a string or some non-string JSON value,
abstracted by a tag. -/
inductive JsonVal where
  | str (s : String)
  | nonString (tag : Nat)
deriving DecidableEq, Repr

/-- Embeds the `PackageJson` interface of the source: `name?`, `version?`,
`dependencies?`. -/
structure PackageJson where
  name : Option String
  version : Option String
  dependencies : Option (List (String × String))
deriving DecidableEq, Repr

/-- Embeds the `JsrJson` interface of the source: `name?`, `version?`,
`imports?`; `others` stands for any further fields, which the code parses
and re-serializes untouched. -/
structure JsrJson where
  name : Option String
  version : Option String
  imports : Option (List (String × JsonVal))
  others : List (String × JsonVal)
deriving DecidableEq, Repr

/-- Embeds the parse result `JsrImportInfo` of the source. -/
structure JsrImportInfo where
  packageName : String
  version : String
  versionPrefix : String
deriving DecidableEq, Repr

/-- Embeds the update records produced by `calculateImportUpdate`
(`{dependency, from, to}`; `from`/`to` are Lean keywords, hence
`fromStr`/`toStr`). -/
structure ImportUpdate where
  dependency : String
  fromStr : String
  toStr : String
deriving DecidableEq, Repr

/-- Embeds the `ChangeRecord` objects `{changes, packageName}` returned by
`syncPackage`. -/
structure ChangeRecord where
  changes : List String
  packageName : String
deriving DecidableEq, Repr

/-- Embeds the `SyncResult` interface of the source. -/
structure SyncResult where
  syncedCount : Nat
  syncedPackages : List ChangeRecord
deriving DecidableEq, Repr

/-- The state of one manifest file on disk: missing, present but not valid
JSON, or present with a parsed document. -/
inductive FileState (α : Type) where
  | absent
  | malformed
  | valid (doc : α)
deriving DecidableEq, Repr

/-- One package directory: its directory name and its two manifest files. -/
structure PkgDir where
  name : String
  packageJson : FileState PackageJson
  jsrJson : FileState JsrJson
deriving DecidableEq, Repr

/-- The two error classes of the source, `JsonParseError` (which carries a
`path`) and `FileSystemError`. -/
inductive SyncError where
  | jsonParse (message : String) (path : String)
  | fileSystem (message : String)
deriving DecidableEq, Repr

instance {e a : Type} [DecidableEq e] [DecidableEq a] : DecidableEq (Except e a) :=
  fun x y =>
    match x, y with
    | .ok u, .ok w => if h : u = w then isTrue (by rw [h]) else isFalse (by simp [h])
    | .error u, .error w => if h : u = w then isTrue (by rw [h]) else isFalse (by simp [h])
    | .ok _, .error _ => isFalse (by simp)
    | .error _, .ok _ => isFalse (by simp)

/-- `join(packagesDir, pkg, 'package.json')`. -/
def pjPath (packagesDir pkg : String) : String :=
  packagesDir ++ "/" ++ pkg ++ "/package.json"

/-- `join(packagesDir, pkg, 'jsr.json')`. -/
def jjPath (packagesDir pkg : String) : String :=
  packagesDir ++ "/" ++ pkg ++ "/jsr.json"

/-- Last-write-wins lookup, the behaviour of a JS `Map` built from an entry
list and of property lookup on a `JSON.parse`d object. -/
def mapGet (m : List (String × String)) (k : String) : Option String :=
  (m.reverse.find? (fun e => e.1 == k)).map (fun e => e.2)

/-- `packageJsonDependencies?.[dep]` (optional chaining). -/
def depsGet (deps : Option (List (String × String))) (k : String) : Option String :=
  match deps with
  | some d => mapGet d k
  | none => none

/-- JS template-string display of a possibly-`undefined` string. -/
def jsDisplay : Option String → String
  | some s => s
  | none => "undefined"

/-- JS `a || b` for a possibly-`undefined` string (empty strings are falsy). -/
def orTruthy (a : Option String) (b : String) : String :=
  match a with
  | some s => if s = "" then b else s
  | none => b

/-- Character class `[\w-]` of the import regex (`\w` is ASCII
alphanumerics plus underscore). -/
def isWordChar (c : Char) : Bool :=
  c.isAlphanum || c = '_' || c = '-'

/-- Character class `[\^~><=]` of the import regex (the range-operator
group). -/
def isOpChar (c : Char) : Bool :=
  c = '^' || c = '~' || c = '>' || c = '<' || c = '='

/-- Character class `[\d.]` of the import regex (the version group). -/
def isVersionChar (c : Char) : Bool :=
  c.isDigit || c = '.'

/-- Matches `@?[\w-]+\/[\w-]+` at the head of `r1` and returns the matched
name characters together with the rest of the input, except that a leading
`@` is handled by the caller. -/
def parseNameFrom (r1 : List Char) : Option (List Char × List Char) :=
  if r1.takeWhile isWordChar = [] then none
  else
    match r1.dropWhile isWordChar with
    | '/' :: r3 =>
      if r3.takeWhile isWordChar = [] then none
      else some (r1.takeWhile isWordChar ++ '/' :: r3.takeWhile isWordChar,
                 r3.dropWhile isWordChar)
    | _ => none

/-- Matches `([\^~><=]*)([\d.]+)` at the head of `r5`, returning the
operator and version groups. -/
def parseTail (r5 : List Char) : Option (List Char × List Char) :=
  if (r5.dropWhile isOpChar).takeWhile isVersionChar = [] then none
  else some (r5.takeWhile isOpChar, (r5.dropWhile isOpChar).takeWhile isVersionChar)

/-- Matches `[\w-]+\/[\w-]+@([\^~><=]*)([\d.]+)` at the head of `r1`,
returning name, operator and version character lists. -/
def parseRest (r1 : List Char) : Option (List Char × List Char × List Char) :=
  match parseNameFrom r1 with
  | some nmr4 =>
    match nmr4.2 with
    | '@' :: r5 =>
      match parseTail r5 with
      | some opver => some (nmr4.1, opver.1, opver.2)
      | none => none
    | _ => none
  | none => none

/-- The full regex `/^jsr:(@?[\w-]+\/[\w-]+)@([\^~><=]*)([\d.]+)/` over
character lists; the pattern is anchored at the start only, so trailing
characters are ignored. -/
def parseJsrImportChars (cs : List Char) : Option (List Char × List Char × List Char) :=
  match cs with
  | c1 :: c2 :: c3 :: c4 :: rest =>
    if c1 = 'j' ∧ c2 = 's' ∧ c3 = 'r' ∧ c4 = ':' then
      match rest with
      | [] => none
      | c :: t =>
        if c = '@' then (parseRest t).map (fun x => ('@' :: x.1, x.2))
        else parseRest (c :: t)
    else none
  | _ => none

/-- The language of group 1 of the regex, `@?[\w-]+\/[\w-]+`. -/
def goodNameChars (nm : List Char) : Prop :=
  ∃ a b, (nm = a ++ '/' :: b ∨ nm = '@' :: (a ++ '/' :: b)) ∧ a ≠ [] ∧ b ≠ [] ∧
    (∀ c ∈ a, isWordChar c = true) ∧ (∀ c ∈ b, isWordChar c = true)

/-- Embeds `parseJsrImport` of the source: decompose a JSR import string
into package name, version and version prefix, or return `null`. -/
def parseJsrImport (importValue : String) : Option JsrImportInfo :=
  match parseJsrImportChars importValue.data with
  | some x =>
    some { packageName := String.mk x.1, version := String.mk x.2.2, versionPrefix := String.mk x.2.1 }
  | none => none

/-- Embeds `createJsrImport` of the source. -/
def createJsrImport (packageName : String) ( versionPfx : String) (version : String) : String :=
  "jsr:" ++ packageName ++ "@" ++ versionPfx ++ version

/-- `packageJsonVersion.replace(/^[\^~]/, '')`: drop one leading caret or
tilde. -/
def stripCaretTilde (s : String) : String :=
  match s.data with
  | c :: t => if c = '^' ∨ c = '~' then String.mk t else s
  | [] => s

/-- Embeds `calculateImportUpdate` of the source: decide whether one
`imports` entry must be rewritten, first against the package map, then
against the enclosing package's own `package.json` dependencies. -/
def calculateImportUpdate (dep : String) (importValue : JsonVal)
    (packageMap : List (String × String))
    (packageJsonDependencies : Option (List (String × String))) : Option ImportUpdate :=
  let stringValue := match importValue with | .str s => s | .nonString _ => ""
  match parseJsrImport stringValue with
  | none => none
  | some parsedImport =>
    let fallback : Option ImportUpdate :=
      match depsGet packageJsonDependencies dep with
      | some packageJsonVersion =>
        if packageJsonVersion ≠ "" ∧ parsedImport.packageName = dep then
          let newImport := createJsrImport parsedImport.packageName
            parsedImport.versionPrefix (stripCaretTilde packageJsonVersion)
          if stringValue ≠ newImport then some ⟨dep, stringValue, newImport⟩ else none
        else none
      | none => none
    match mapGet packageMap parsedImport.packageName with
    | some monorepoVersion =>
      if monorepoVersion ≠ "" then
        let newImport := createJsrImport parsedImport.packageName
          parsedImport.versionPrefix monorepoVersion
        if stringValue ≠ newImport then some ⟨dep, stringValue, newImport⟩ else none
      else fallback
    | none => fallback

/-- Embeds `calculateImportUpdates` of the source. -/
def calculateImportUpdates (imports : List (String × JsonVal))
    (packageMap : List (String × String))
    (packageJsonDependencies : Option (List (String × String))) : List ImportUpdate :=
  imports.filterMap (fun e => calculateImportUpdate e.1 e.2 packageMap packageJsonDependencies)

/-- The change string `imports[{dep}]: {from} → {to}` staged for one import
update (`formatImportUpdates` in the source). -/
def importChangeString (u : ImportUpdate) : String :=
  "imports[" ++ u.dependency ++ "]: " ++ u.fromStr ++ " → " ++ u.toStr

/-- `Object.fromEntries(updates)` followed by key lookup: the last update
for a key wins. -/
def updatesGet (updates : List ImportUpdate) (k : String) : Option String :=
  (updates.reverse.find? (fun u => u.dependency == k)).map (fun u => u.toStr)

/-- `Object.assign(jsrJson.imports, updatedImports)`: each existing entry
keeps its key and receives the updated string value, if any. -/
def assignImports (imports : List (String × JsonVal)) (updates : List ImportUpdate) :
    List (String × JsonVal) :=
  imports.map (fun e =>
    match updatesGet updates e.1 with
    | some t => (e.1, JsonVal.str t)
    | none => e)

/-- The pure body of `syncPackage` between parsing and persisting: stage the
version change, stage the import changes, and build the updated document
(source lines 373-396). -/
structure SyncStep where
  changes : List String
  newDoc : JsrJson
  actualPackageName : String
deriving DecidableEq, Repr

/-- Compute the staged changes, the updated secondary document and the
reported package name for one package (the in-memory part of
`syncPackage`). -/
def syncDocs (pkg : String) (pj : PackageJson) (jj : JsrJson)
    (packageMap : List (String × String)) : SyncStep :=
  let versionStep : List String × JsrJson :=
    match pj.version with
    | some v =>
      if v ≠ "" ∧ jj.version ≠ some v then
        (["version: " ++ jsDisplay jj.version ++ " → " ++ v], { jj with version := some v })
      else ([], jj)
    | none => ([], jj)
  let jj1 := versionStep.2
  let importsStep : List String × JsrJson :=
    match jj1.imports with
    | some imps =>
      let updates := calculateImportUpdates imps packageMap pj.dependencies
      (updates.map importChangeString,
       { jj1 with imports := some (assignImports imps updates) })
    | none => ([], jj1)
  { changes := versionStep.1 ++ importsStep.1
    newDoc := importsStep.2
    actualPackageName := orTruthy pj.name (orTruthy jj.name pkg) }

/-- Embeds `readPackageInfo` of the source: read one `package.json`; a
missing file yields `null`, malformed JSON raises `JsonParseError` carrying
the `package.json` path, and a document lacking a truthy `name` or
`version` yields `null`. -/
def readPackageInfo (pkg : String) (packagesDir : String)
    (file : FileState PackageJson) : Except SyncError (Option (String × String)) :=
  match file with
  | .absent => .ok none
  | .malformed =>
    .error (.jsonParse ("Invalid JSON in read package.json for " ++ pkg)
      (pjPath packagesDir pkg))
  | .valid pj =>
    match pj.name with
    | some n =>
      match pj.version with
      | some v => if n ≠ "" ∧ v ≠ "" then .ok (some (n, v)) else .ok none
      | none => .ok none
    | none => .ok none

/-- Embeds `buildPackageMap` of the source: read every package's
`package.json` and collect the `name → version` entries of those that
parse and carry both fields. -/
def buildPackageMap (tree : List PkgDir) (packagesDir : String) :
    Except SyncError (List (String × String)) :=
  match tree with
  | [] => .ok []
  | d :: rest =>
    match readPackageInfo d.name packagesDir d.packageJson with
    | .error e => .error e
    | .ok i =>
      match buildPackageMap rest packagesDir with
      | .error e => .error e
      | .ok tailEntries =>
        .ok (match i with | some x => x :: tailEntries | none => tailEntries)

/-- Embeds `syncPackage` of the source.  A missing manifest (either file)
returns `null`; malformed JSON in either file raises `JsonParseError`
carrying the `package.json` path (the source always passes
`packageJsonPath`); otherwise the staged changes are computed and, unless
`dryRun`, the updated document is written back.  The returned pair is the
change record (or `none`) together with the resulting state of the
package's `jsr.json` file. -/
def syncPackage (d : PkgDir) (packageMap : List (String × String))
    (packagesDir : String) (dryRun : Bool) :
    Except SyncError (Option ChangeRecord × FileState JsrJson) :=
  match d.packageJson, d.jsrJson with
  | .absent, _ => .ok (none, d.jsrJson)
  | _, .absent => .ok (none, d.jsrJson)
  | .malformed, _ =>
    .error (.jsonParse ("Invalid JSON in package files for " ++ d.name)
      (pjPath packagesDir d.name))
  | .valid _, .malformed =>
    .error (.jsonParse ("Invalid JSON in package files for " ++ d.name)
      (pjPath packagesDir d.name))
  | .valid pj, .valid jj =>
    let step := syncDocs d.name pj jj packageMap
    if step.changes = [] then .ok (none, d.jsrJson)
    else .ok (some ⟨step.changes, step.actualPackageName⟩,
              if dryRun then d.jsrJson else .valid step.newDoc)

/-- Run `syncPackage` over every package (`Promise.all` in the source; the
packages are independent, so sequential state passing is observationally
equal), returning each change record with the package's updated directory
state. -/
def syncAll (tree : List PkgDir) (packageMap : List (String × String))
    (packagesDir : String) (dryRun : Bool) :
    Except SyncError (List (Option ChangeRecord × PkgDir)) :=
  match tree with
  | [] => .ok []
  | d :: rest =>
    match syncPackage d packageMap packagesDir dryRun with
    | .error e => .error e
    | .ok x =>
      match syncAll rest packageMap packagesDir dryRun with
      | .error e => .error e
      | .ok xs => .ok ((x.1, { d with jsrJson := x.2 }) :: xs)

/-- Embeds the exported `syncJsrJson` entry point: build the package map,
sync every package, and aggregate the non-null results.  Returns the
`SyncResult` together with the resulting directory tree. -/
def syncJsrJson (tree : List PkgDir) (packagesDir : String) (dryRun : Bool) :
    Except SyncError (SyncResult × List PkgDir) :=
  match buildPackageMap tree packagesDir with
  | .error e => .error e
  | .ok packageMap =>
    match syncAll tree packageMap packagesDir dryRun with
    | .error e => .error e
    | .ok results =>
      let syncedPackages := results.filterMap (fun r => r.1)
      .ok ({ syncedCount := syncedPackages.length, syncedPackages := syncedPackages },
           results.map (fun r => r.2))

example : parseJsrImport "jsr:@a/b@=1.0.0" = some ⟨"@a/b", "1.0.0", "="⟩ := by decide
example : parseJsrImport "jsr:@a/b@1.0.0-beta" = some ⟨"@a/b", "1.0.0", ""⟩ := by decide
example : parseJsrImport "jsr:@a/b@" = none := by decide

/-! ### Helper lemmas on `takeWhile` / `dropWhile` and the character classes -/

theorem takeWhile_append_all {α : Type} (p : α → Bool) (a r : List α)
    (ha : ∀ c ∈ a, p c = true) : (a ++ r).takeWhile p = a ++ r.takeWhile p := by
  induction a with
  | nil => simp
  | cons h t ih =>
    simp only [List.cons_append, List.takeWhile_cons, ha h (by simp), if_true]
    rw [ih (fun c hc => ha c (by simp [hc]))]

theorem dropWhile_append_all {α : Type} (p : α → Bool) (a r : List α)
    (ha : ∀ c ∈ a, p c = true) : (a ++ r).dropWhile p = r.dropWhile p := by
  induction a with
  | nil => simp
  | cons h t ih =>
    simp only [List.cons_append, List.dropWhile_cons, ha h (by simp), if_true]
    exact ih (fun c hc => ha c (by simp [hc]))

theorem takeWhile_nil_of_head {α : Type} (p : α → Bool) (h : α) (t : List α)
    (hh : p h = false) : (h :: t).takeWhile p = [] := by
  simp [List.takeWhile_cons, hh]

theorem dropWhile_id_of_head {α : Type} (p : α → Bool) (h : α) (t : List α)
    (hh : p h = false) : (h :: t).dropWhile p = h :: t := by
  simp [List.dropWhile_cons, hh]

theorem mem_takeWhile_sat {α : Type} (p : α → Bool) (l : List α) :
    ∀ c ∈ l.takeWhile p, p c = true := by
  induction l with
  | nil => simp
  | cons h t ih =>
    by_cases hp : p h
    · simp only [List.takeWhile_cons, hp, if_true]
      intro c hc
      rcases List.mem_cons.mp hc with rfl | hc
      · exact hp
      · exact ih c hc
    · simp [List.takeWhile_cons, hp]

theorem wordChar_ne_at {c : Char} (h : isWordChar c = true) : c ≠ '@' := by
  intro he; subst he; exact absurd h (by decide)

theorem wordChar_ne_slash {c : Char} (h : isWordChar c = true) : c ≠ '/' := by
  intro he; subst he; exact absurd h (by decide)

theorem versionChar_not_op {c : Char} (h : isVersionChar c = true) : isOpChar c = false := by
  by_contra hne
  have hop : isOpChar c = true := by revert hne; cases isOpChar c <;> simp
  simp only [isOpChar, Bool.or_eq_true, decide_eq_true_eq] at hop
  rcases hop with ((((h1 | h1) | h1) | h1) | h1) <;> subst h1 <;> exact absurd h (by decide)

/-! ### Soundness and completeness of the embedded regex -/

theorem parseNameFrom_complete (a b : List Char) (r : List Char)
    (ha : a ≠ []) (hb : b ≠ [])
    (hwa : ∀ c ∈ a, isWordChar c = true) (hwb : ∀ c ∈ b, isWordChar c = true) :
    parseNameFrom (a ++ '/' :: (b ++ '@' :: r)) = some (a ++ '/' :: b, '@' :: r) := by
  have hta : (a ++ '/' :: (b ++ '@' :: r)).takeWhile isWordChar = a := by
    rw [takeWhile_append_all isWordChar a _ hwa,
        takeWhile_nil_of_head isWordChar '/' _ (by decide), List.append_nil]
  have hda : (a ++ '/' :: (b ++ '@' :: r)).dropWhile isWordChar = '/' :: (b ++ '@' :: r) := by
    rw [dropWhile_append_all isWordChar a _ hwa,
        dropWhile_id_of_head isWordChar '/' _ (by decide)]
  have htb : (b ++ '@' :: r).takeWhile isWordChar = b := by
    rw [takeWhile_append_all isWordChar b _ hwb,
        takeWhile_nil_of_head isWordChar '@' _ (by decide), List.append_nil]
  have hdb : (b ++ '@' :: r).dropWhile isWordChar = '@' :: r := by
    rw [dropWhile_append_all isWordChar b _ hwb,
        dropWhile_id_of_head isWordChar '@' _ (by decide)]
  simp [parseNameFrom, hta, hda, htb, hdb, ha, hb]

theorem parseTail_complete (op v rest : List Char)
    (hop : ∀ c ∈ op, isOpChar c = true) (hv : v ≠ [])
    (hva : ∀ c ∈ v, isVersionChar c = true) :
    parseTail (op ++ (v ++ rest)) = some (op, v ++ rest.takeWhile isVersionChar) := by
  obtain ⟨vh, vt, rfl⟩ : ∃ vh vt, v = vh :: vt := by
    cases v with
    | nil => exact absurd rfl hv
    | cons vh vt => exact ⟨vh, vt, rfl⟩
  simp only [List.cons_append]
  have hvh : isOpChar vh = false := versionChar_not_op (hva vh (by simp))
  have hdall : (op ++ vh :: (vt ++ rest)).dropWhile isOpChar = vh :: (vt ++ rest) := by
    rw [dropWhile_append_all isOpChar op _ hop]
    exact dropWhile_id_of_head isOpChar vh _ hvh
  have ht : (op ++ vh :: (vt ++ rest)).takeWhile isOpChar = op := by
    rw [takeWhile_append_all isOpChar op _ hop,
        takeWhile_nil_of_head isOpChar vh _ hvh, List.append_nil]
  have htv : (vh :: (vt ++ rest)).takeWhile isVersionChar
      = vh :: (vt ++ rest.takeWhile isVersionChar) := by
    have h0 := takeWhile_append_all isVersionChar (vh :: vt) rest hva
    simpa using h0
  simp only [parseTail, hdall, ht, htv]
  simp

theorem parseRest_complete (a b op v rest : List Char)
    (ha : a ≠ []) (hb : b ≠ [])
    (hwa : ∀ c ∈ a, isWordChar c = true) (hwb : ∀ c ∈ b, isWordChar c = true)
    (hop : ∀ c ∈ op, isOpChar c = true) (hv : v ≠ [])
    (hva : ∀ c ∈ v, isVersionChar c = true) :
    parseRest (a ++ '/' :: (b ++ '@' :: (op ++ (v ++ rest))))
      = some (a ++ '/' :: b, op, v ++ rest.takeWhile isVersionChar) := by
  simp only [parseRest, parseNameFrom_complete a b _ ha hb hwa hwb,
    parseTail_complete op v rest hop hv hva]

theorem parseJsrImportChars_complete (nm op v rest : List Char)
    (hn : goodNameChars nm) (hop : ∀ c ∈ op, isOpChar c = true)
    (hv : v ≠ []) (hva : ∀ c ∈ v, isVersionChar c = true) :
    (parseJsrImportChars ('j' :: 's' :: 'r' :: ':' :: (nm ++ '@' :: (op ++ (v ++ rest))))).isSome := by
  obtain ⟨a, b, hcase, ha, hb, hwa, hwb⟩ := hn
  rcases hcase with h | h <;> subst h
  · obtain ⟨ah, atl, rfl⟩ : ∃ ah atl, a = ah :: atl := by
      cases a with
      | nil => exact absurd rfl ha
      | cons ah atl => exact ⟨ah, atl, rfl⟩
    have hne : ¬ ah = '@' := wordChar_ne_at (hwa ah (by simp))
    have hshape : ((ah :: atl) ++ '/' :: b) ++ '@' :: (op ++ (v ++ rest))
        = ah :: (atl ++ '/' :: (b ++ '@' :: (op ++ (v ++ rest)))) := by simp
    rw [hshape]
    simp only [parseJsrImportChars]
    rw [if_neg hne]
    have hback : ah :: (atl ++ '/' :: (b ++ '@' :: (op ++ (v ++ rest))))
        = (ah :: atl) ++ '/' :: (b ++ '@' :: (op ++ (v ++ rest))) := rfl
    rw [hback, parseRest_complete (ah :: atl) b op v rest ha hb hwa hwb hop hv hva]
    rfl
  · have hshape : ('@' :: (a ++ '/' :: b)) ++ '@' :: (op ++ (v ++ rest))
        = '@' :: (a ++ '/' :: (b ++ '@' :: (op ++ (v ++ rest)))) := by simp
    rw [hshape]
    simp only [parseJsrImportChars]
    simp only [if_true]
    rw [parseRest_complete a b op v rest ha hb hwa hwb hop hv hva]
    rfl

theorem parseNameFrom_sound (r1 nm r4 : List Char) (h : parseNameFrom r1 = some (nm, r4)) :
    (∃ a b, nm = a ++ '/' :: b ∧ a ≠ [] ∧ b ≠ [] ∧
      (∀ c ∈ a, isWordChar c = true) ∧ (∀ c ∈ b, isWordChar c = true)) ∧ r1 = nm ++ r4 := by
  unfold parseNameFrom at h
  split at h
  · simp at h
  · rename_i hta
    split at h
    · rename_i r3 heq
      split at h
      · simp at h
      · rename_i htb
        simp only [Option.some.injEq, Prod.mk.injEq] at h
        obtain ⟨h1, h2⟩ := h
        subst h1; subst h2
        refine ⟨⟨r1.takeWhile isWordChar, r3.takeWhile isWordChar, rfl, hta, htb,
          mem_takeWhile_sat _ _, mem_takeWhile_sat _ _⟩, ?_⟩
        conv_lhs => rw [← List.takeWhile_append_dropWhile isWordChar r1]
        rw [heq]
        conv_lhs => rw [← List.takeWhile_append_dropWhile isWordChar r3]
        simp
    · simp at h

theorem parseTail_sound (r5 op ver : List Char) (h : parseTail r5 = some (op, ver)) :
    (∀ c ∈ op, isOpChar c = true) ∧ ver ≠ [] ∧ (∀ c ∈ ver, isVersionChar c = true) ∧
    ∃ rest, r5 = op ++ (ver ++ rest) := by
  unfold parseTail at h
  split at h
  · simp at h
  · rename_i hne
    simp only [Option.some.injEq, Prod.mk.injEq] at h
    obtain ⟨h1, h2⟩ := h
    subst h1; subst h2
    refine ⟨mem_takeWhile_sat _ _, hne, mem_takeWhile_sat _ _,
      ⟨(r5.dropWhile isOpChar).dropWhile isVersionChar, ?_⟩⟩
    conv_lhs => rw [← List.takeWhile_append_dropWhile isOpChar r5]
    congr 1
    exact (List.takeWhile_append_dropWhile isVersionChar (r5.dropWhile isOpChar)).symm

theorem parseRest_sound (r1 nm op ver : List Char) (h : parseRest r1 = some (nm, op, ver)) :
    (∃ a b, nm = a ++ '/' :: b ∧ a ≠ [] ∧ b ≠ [] ∧
      (∀ c ∈ a, isWordChar c = true) ∧ (∀ c ∈ b, isWordChar c = true)) ∧
    (∀ c ∈ op, isOpChar c = true) ∧ ver ≠ [] ∧ (∀ c ∈ ver, isVersionChar c = true) ∧
    ∃ rest, r1 = nm ++ '@' :: (op ++ (ver ++ rest)) := by
  unfold parseRest at h
  split at h
  · rename_i nmr4 heq
    split at h
    · rename_i r5 heq4
      split at h
      · rename_i opver heq5
        simp only [Option.some.injEq, Prod.mk.injEq] at h
        obtain ⟨h1, h2, h3⟩ := h
        subst h1; subst h2; subst h3
        obtain ⟨hgood, hsplit⟩ := parseNameFrom_sound r1 nmr4.1 nmr4.2 (by rw [heq])
        obtain ⟨hop, hv, hva, rest, hr5⟩ := parseTail_sound r5 opver.1 opver.2 (by rw [heq5])
        exact ⟨hgood, hop, hv, hva, rest, by rw [hsplit, heq4, hr5]⟩
      · simp at h
    · simp at h
  · simp at h

theorem parseJsrImportChars_sound (cs nm op ver : List Char)
    (h : parseJsrImportChars cs = some (nm, op, ver)) :
    goodNameChars nm ∧ (∀ c ∈ op, isOpChar c = true) ∧ ver ≠ [] ∧
    (∀ c ∈ ver, isVersionChar c = true) ∧
    ∃ rest, cs = 'j' :: 's' :: 'r' :: ':' :: (nm ++ '@' :: (op ++ (ver ++ rest))) := by
  unfold parseJsrImportChars at h
  split at h
  · rename_i c1 c2 c3 c4 rest
    split at h
    · rename_i hj
      obtain ⟨rfl, rfl, rfl, rfl⟩ := hj
      split at h
      · simp at h
      · rename_i c t
        split at h
        · rename_i hc
          subst hc
          rw [Option.map_eq_some'] at h
          obtain ⟨⟨nm', ops⟩, hps, hval⟩ := h
          obtain ⟨op', ver'⟩ := ops
          obtain ⟨hgood, hop, hv, hva, rest', hr⟩ := parseRest_sound t nm' op' ver' hps
          simp only [Prod.mk.injEq] at hval
          obtain ⟨h1, h2, h3⟩ := hval
          subst h1; subst h2; subst h3
          obtain ⟨a, b, hab, ha, hb, hwa, hwb⟩ := hgood
          refine ⟨⟨a, b, Or.inr (by rw [hab]), ha, hb, hwa, hwb⟩, hop, hv, hva, rest', ?_⟩
          rw [hr, hab]
          simp
        · rename_i hc
          obtain ⟨hgood, hop, hv, hva, rest', hr⟩ := parseRest_sound (c :: t) nm op ver h
          obtain ⟨a, b, hab, ha, hb, hwa, hwb⟩ := hgood
          exact ⟨⟨a, b, Or.inl hab, ha, hb, hwa, hwb⟩, hop, hv, hva, rest', by rw [hr]⟩
    · simp at h
  · simp at h

theorem parseJsrImport_isSome_of_chars {s : String}
    (h : (parseJsrImportChars s.data).isSome) : (parseJsrImport s).isSome := by
  unfold parseJsrImport
  obtain ⟨x, hx⟩ := Option.isSome_iff_exists.mp h
  rw [hx]
  rfl

theorem parseJsrImport_eq_some {s : String} {p : JsrImportInfo} (h : parseJsrImport s = some p) :
    ∃ x, parseJsrImportChars s.data = some x ∧
      p.packageName = String.mk x.1 ∧ p.versionPrefix = String.mk x.2.1 ∧
      p.version = String.mk x.2.2 := by
  unfold parseJsrImport at h
  split at h
  · rename_i x heq
    simp only [Option.some.injEq] at h
    exact ⟨x, heq, by rw [← h], by rw [← h], by rw [← h]⟩
  · simp at h

theorem parseJsrImport_sound (s : String) (p : JsrImportInfo) (h : parseJsrImport s = some p) :
    goodNameChars p.packageName.data ∧ (∀ c ∈ p.versionPrefix.data, isOpChar c = true) ∧
    p.version.data ≠ [] ∧ (∀ c ∈ p.version.data, isVersionChar c = true) ∧
    ∃ rest, s.data = 'j' :: 's' :: 'r' :: ':' ::
      (p.packageName.data ++ '@' :: (p.versionPrefix.data ++ (p.version.data ++ rest))) := by
  obtain ⟨x, heq, h1, h2, h3⟩ := parseJsrImport_eq_some h
  obtain ⟨hgood, hop, hv, hva, rest, hcs⟩ :=
    parseJsrImportChars_sound s.data x.1 x.2.1 x.2.2 (by rw [heq])
  rw [h1, h2, h3]
  exact ⟨hgood, hop, hv, hva, rest, hcs⟩

theorem createJsrImport_data (pn vp v : String) :
    (createJsrImport pn vp v).data
      = 'j' :: 's' :: 'r' :: ':' :: (pn.data ++ '@' :: (vp.data ++ (v.data ++ []))) := by
  have hjsr : ("jsr:" : String).data = ['j', 's', 'r', ':'] := rfl
  have hat : ("@" : String).data = ['@'] := rfl
  simp [createJsrImport, String.data_append, hjsr, hat]

/-- C6, counterexample: the Version-Reference Parser accepts strings outside
the claimed grammar, so the claim's "for every other input it returns null"
fails: an operator `=` outside the claimed set, trailing characters after
the version, and a version consisting of a lone dot are all accepted. -/
theorem C6_counterexample_laxAcceptance :
    parseJsrImport "jsr:@a/b@=1.0.0" = some ⟨"@a/b", "1.0.0", "="⟩
    ∧ "=" ∉ ["", "^", "~", ">=", ">", "<=", "<"]
    ∧ parseJsrImport "jsr:@a/b@1.0.0-beta" = some ⟨"@a/b", "1.0.0", ""⟩
    ∧ parseJsrImport "jsr:@a/b@." = some ⟨"@a/b", ".", ""⟩ :=
  ⟨by decide, by decide, by decide, by decide⟩

/-- C6, amended: the Version-Reference Parser returns non-null exactly for
strings of the shape `jsr:` + optional `@` + word-run + `/` + word-run +
`@` + any possibly-empty run over the characters `^ ~ > < =` + a nonempty
run of digits and dots, followed by arbitrary trailing characters. -/
theorem C6_amended_parserAcceptance (s : String) :
    (parseJsrImport s).isSome ↔
      ∃ nm op ver rest,
        s.data = 'j' :: 's' :: 'r' :: ':' :: (nm ++ '@' :: (op ++ (ver ++ rest)))
        ∧ goodNameChars nm ∧ (∀ c ∈ op, isOpChar c = true) ∧ ver ≠ []
        ∧ (∀ c ∈ ver, isVersionChar c = true) := by
  constructor
  · intro h
    obtain ⟨p, hp⟩ := Option.isSome_iff_exists.mp h
    obtain ⟨hgood, hop, hv, hva, rest, hcs⟩ := parseJsrImport_sound s p hp
    exact ⟨_, _, _, rest, hcs, hgood, hop, hv, hva⟩
  · rintro ⟨nm, op, ver, rest, hcs, hgood, hop, hv, hva⟩
    apply parseJsrImport_isSome_of_chars
    rw [hcs]
    exact parseJsrImportChars_complete nm op ver rest hgood hop hv hva

/-- C7: for every input string the Version-Reference Parser accepts,
re-serializing the parsed triple as prefix + packageName + "@" + operator +
version yields a string the same parser accepts again. -/
theorem C7_roundTripStable (s : String) (p : JsrImportInfo)
    (h : parseJsrImport s = some p) :
    (parseJsrImport (createJsrImport p.packageName p.versionPrefix p.version)).isSome := by
  obtain ⟨hgood, hop, hv, hva, _⟩ := parseJsrImport_sound s p h
  apply parseJsrImport_isSome_of_chars
  rw [createJsrImport_data]
  exact parseJsrImportChars_complete p.packageName.data p.versionPrefix.data p.version.data []
    hgood hop hv hva

/-- Witness for C7 at a concrete accepted input. -/
theorem C7_roundTripStable_witness :
    (parseJsrImport (createJsrImport "@a/b" "^" "1.0.0")).isSome :=
  C7_roundTripStable "jsr:@a/b@^1.0.0" ⟨"@a/b", "1.0.0", "^"⟩ (by decide)

/-! ### The Local Package Index -/

theorem readPackageInfo_some (pkg dir : String) (file : FileState PackageJson)
    (x : String × String) (h : readPackageInfo pkg dir file = .ok (some x)) :
    x.1 ≠ "" ∧ x.2 ≠ "" := by
  cases file with
  | absent => simp [readPackageInfo] at h
  | malformed => simp [readPackageInfo] at h
  | valid pj =>
    simp only [readPackageInfo] at h
    split at h
    · rename_i n heqn
      split at h
      · rename_i v heqv
        split at h
        · rename_i hcond
          simp only [Except.ok.injEq, Option.some.injEq] at h
          subst h
          exact hcond
        · simp at h
      · simp at h
    · simp at h

theorem buildPackageMap_values (tree : List PkgDir) (dir : String)
    (pm : List (String × String)) (h : buildPackageMap tree dir = .ok pm) :
    ∀ e ∈ pm, e.1 ≠ "" ∧ e.2 ≠ "" := by
  induction tree generalizing pm with
  | nil =>
    unfold buildPackageMap at h
    simp only [Except.ok.injEq] at h
    subst h; simp
  | cons d rest ih =>
    unfold buildPackageMap at h
    split at h
    · simp at h
    · rename_i i heqi
      split at h
      · simp at h
      · rename_i tailE heqt
        simp only [Except.ok.injEq] at h
        subst h
        intro e he
        cases i with
        | none => exact ih tailE heqt e he
        | some x =>
          rcases List.mem_cons.mp he with rfl | he
          · exact readPackageInfo_some d.name dir d.packageJson e heqi
          · exact ih tailE heqt e he

theorem mapGet_mem (m : List (String × String)) (k v : String) (h : mapGet m k = some v) :
    ∃ e, e ∈ m ∧ e.1 = k ∧ e.2 = v := by
  unfold mapGet at h
  rw [Option.map_eq_some'] at h
  obtain ⟨e, hfind, hev⟩ := h
  refine ⟨e, List.mem_reverse.mp (List.mem_of_find?_eq_some hfind), ?_, hev⟩
  have hbeq := List.find?_some hfind
  simpa using hbeq

/-- C1: for every accepted imports entry whose parsed package name maps to a
version V in a Local Package Index built by buildPackageMap,
calculateImportUpdate rewrites the entry to the reference built from the same
package name, the original parsed range operator verbatim, and V; the entry
is changed (an update staged) exactly when this candidate differs textually
from the current value, and the staged change string has the documented
`imports[alias]: old → new` form. -/
theorem C1_operatorPreservingRewrite (tree : List PkgDir) (packagesDir dep s V : String)
    (p : JsrImportInfo) (pm : List (String × String))
    (deps : Option (List (String × String)))
    (hpm : buildPackageMap tree packagesDir = .ok pm)
    (hp : parseJsrImport s = some p)
    (hV : mapGet pm p.packageName = some V) :
    calculateImportUpdate dep (.str s) pm deps =
      (if s ≠ createJsrImport p.packageName p.versionPrefix V then
        some ⟨dep, s, createJsrImport p.packageName p.versionPrefix V⟩
      else none)
    ∧ importChangeString ⟨dep, s, createJsrImport p.packageName p.versionPrefix V⟩
        = "imports[" ++ dep ++ "]: " ++ s ++ " → " ++ createJsrImport p.packageName p.versionPrefix V := by
  constructor
  · have hVne : V ≠ "" := by
      obtain ⟨e, hem, _, hev⟩ := mapGet_mem pm p.packageName V hV
      rw [← hev]
      exact (buildPackageMap_values tree packagesDir pm hpm e hem).2
    simp only [calculateImportUpdate, hp, hV]
    rw [if_pos hVne]
  · rfl

/-- Witness for C1 at a concrete tree and entry. -/
theorem C1_operatorPreservingRewrite_witness :
    calculateImportUpdate "pkg1" (.str "jsr:@t/pkg1@^1.5.0") [("@t/pkg1", "2.0.0")] none =
      (if "jsr:@t/pkg1@^1.5.0" ≠ createJsrImport "@t/pkg1" "^" "2.0.0" then
        some ⟨"pkg1", "jsr:@t/pkg1@^1.5.0", createJsrImport "@t/pkg1" "^" "2.0.0"⟩
      else none)
    ∧ importChangeString ⟨"pkg1", "jsr:@t/pkg1@^1.5.0", createJsrImport "@t/pkg1" "^" "2.0.0"⟩
        = "imports[" ++ "pkg1" ++ "]: " ++ "jsr:@t/pkg1@^1.5.0" ++ " → "
          ++ createJsrImport "@t/pkg1" "^" "2.0.0" :=
  C1_operatorPreservingRewrite
    [⟨"pkg1", .valid ⟨some "@t/pkg1", some "2.0.0", none⟩, .absent⟩]
    "pkgs" "pkg1" "jsr:@t/pkg1@^1.5.0" "2.0.0" ⟨"@t/pkg1", "1.5.0", "^"⟩
    [("@t/pkg1", "2.0.0")] none (by decide) (by decide) (by decide)

/-- C2, counterexample: an accepted entry whose parsed name is absent from
the Local Package Index is nevertheless rewritten (a change staged), via the
package.json dependencies fallback of calculateImportUpdate, refuting the
claim that such entries are always left unchanged. -/
theorem C2_counterexample_fallbackRewrites :
    parseJsrImport "jsr:@x/y@^1.0.0" = some ⟨"@x/y", "1.0.0", "^"⟩
    ∧ mapGet [] "@x/y" = none
    ∧ calculateImportUpdate "@x/y" (.str "jsr:@x/y@^1.0.0") [] (some [("@x/y", "^2.0.0")]) =
        some ⟨"@x/y", "jsr:@x/y@^1.0.0", "jsr:@x/y@^2.0.0"⟩ :=
  ⟨by decide, by decide, by decide⟩

/-- C2, amended: an accepted entry whose parsed name is absent from the index
is left unchanged, with no staged change and no error, provided the entry's
alias is not recorded in the enclosing package.json dependencies with a
nonempty range under exactly the parsed package name (otherwise the fallback
path of calculateImportUpdate may rewrite it from that range). -/
theorem C2_amended_externalUntouched (dep s : String) (p : JsrImportInfo)
    (pm : List (String × String)) (deps : Option (List (String × String)))
    (hp : parseJsrImport s = some p)
    (hidx : mapGet pm p.packageName = none)
    (hfb : depsGet deps dep = none ∨ depsGet deps dep = some "" ∨ p.packageName ≠ dep) :
    calculateImportUpdate dep (.str s) pm deps = none := by
  simp only [calculateImportUpdate, hp, hidx]
  rcases hfb with hfb | hfb | hfb
  · rw [hfb]
  · rw [hfb]; simp
  · cases hd : depsGet deps dep with
    | none => rfl
    | some pv => simp [hfb]

/-- Witness for the amended C2 at a concrete input. -/
theorem C2_amended_externalUntouched_witness :
    calculateImportUpdate "other" (.str "jsr:@x/y@^1.0.0") [] none = none :=
  C2_amended_externalUntouched "other" "jsr:@x/y@^1.0.0" ⟨"@x/y", "1.0.0", "^"⟩ [] none
    (by decide) (by decide) (Or.inl (by decide))

/-! ### Dry-run equivalence -/

theorem exceptMap_error_iff {e a b : Type} (f : a → b) (o : Except e a) (err : e) :
    Except.map f o = .error err ↔ o = .error err := by
  cases o <;> simp [Except.map]

theorem exceptMap_ok_iff {e a b : Type} (f : a → b) (o : Except e a) (y : b) :
    Except.map f o = .ok y ↔ ∃ x, o = .ok x ∧ f x = y := by
  cases o <;> simp [Except.map]

theorem syncPackage_dryRun (d : PkgDir) (pm : List (String × String)) (dir : String) :
    syncPackage d pm dir true
      = Except.map (fun x => (x.1, d.jsrJson)) (syncPackage d pm dir false) := by
  obtain ⟨n, pjf, jjf⟩ := d
  cases pjf <;> cases jjf <;> simp only [syncPackage, Except.map]
  split <;> rfl

theorem syncAll_dryRun_fst (tree : List PkgDir) (pm : List (String × String)) (dir : String) :
    Except.map (List.map Prod.fst) (syncAll tree pm dir true)
      = Except.map (List.map Prod.fst) (syncAll tree pm dir false) := by
  induction tree with
  | nil => rfl
  | cons d rest ih =>
    unfold syncAll
    rw [syncPackage_dryRun d pm dir]
    cases hx : syncPackage d pm dir false with
    | error e => rfl
    | ok x =>
      simp only [Except.map]
      cases hr1 : syncAll rest pm dir true with
      | error e1 =>
        cases hr2 : syncAll rest pm dir false with
        | error e2 =>
          rw [hr1, hr2] at ih
          simp only [Except.map] at ih
          injection ih with he
          subst he
          rfl
        | ok xs2 =>
          rw [hr1, hr2] at ih
          simp [Except.map] at ih
      | ok xs1 =>
        cases hr2 : syncAll rest pm dir false with
        | error e2 =>
          rw [hr1, hr2] at ih
          simp [Except.map] at ih
        | ok xs2 =>
          rw [hr1, hr2] at ih
          simp only [Except.map, Except.ok.injEq] at ih
          simp [Except.map, ih]

theorem syncPackage_true_snd (d : PkgDir) (pm : List (String × String)) (dir : String)
    (x : Option ChangeRecord × FileState JsrJson) (h : syncPackage d pm dir true = .ok x) :
    x.2 = d.jsrJson := by
  rw [syncPackage_dryRun d pm dir] at h
  obtain ⟨y, hy, hfy⟩ := (exceptMap_ok_iff _ _ _).mp h
  rw [← hfy]

theorem syncAll_true_tree (tree : List PkgDir) (pm : List (String × String)) (dir : String)
    (res : List (Option ChangeRecord × PkgDir)) (h : syncAll tree pm dir true = .ok res) :
    res.map Prod.snd = tree := by
  induction tree generalizing res with
  | nil =>
    unfold syncAll at h
    simp only [Except.ok.injEq] at h
    subst h; rfl
  | cons d rest ih =>
    unfold syncAll at h
    split at h
    · simp at h
    · rename_i x hx
      split at h
      · simp at h
      · rename_i xs hxs
        simp only [Except.ok.injEq] at h
        subst h
        simp only [List.map_cons]
        rw [ih xs hxs, syncPackage_true_snd d pm dir x hx]

theorem filterMap_fst_eq {a : Type} {b : Type} (l1 l2 : List (Option a × b))
    (h : l1.map Prod.fst = l2.map Prod.fst) :
    l1.filterMap Prod.fst = l2.filterMap Prod.fst := by
  induction l1 generalizing l2 with
  | nil =>
    cases l2 with
    | nil => rfl
    | cons y ys => simp at h
  | cons x xs ih =>
    cases l2 with
    | nil => simp at h
    | cons y ys =>
      simp only [List.map_cons, List.cons.injEq] at h
      obtain ⟨h1, h2⟩ := h
      simp only [List.filterMap_cons, h1]
      cases y.1 <;> simp [ih ys h2]

/-- C4: running the batch with dryRun true returns a SyncResult (count,
packages, changes) equal to the one a dryRun-false run returns from the same
starting state — including the propagated error when one occurs — and the
dryRun-true run leaves every file in the tree unchanged. -/
theorem C4_dryRunFrame (tree : List PkgDir) (dir : String) :
    Except.map Prod.fst (syncJsrJson tree dir true)
      = Except.map Prod.fst (syncJsrJson tree dir false)
    ∧ ∀ res newTree, syncJsrJson tree dir true = .ok (res, newTree) → newTree = tree := by
  constructor
  · unfold syncJsrJson
    cases hbm : buildPackageMap tree dir with
    | error e => rfl
    | ok pm =>
      dsimp only
      have hfst := syncAll_dryRun_fst tree pm dir
      cases h1 : syncAll tree pm dir true with
      | error e1 =>
        cases h2 : syncAll tree pm dir false with
        | error e2 =>
          rw [h1, h2] at hfst
          simp only [Except.map] at hfst
          injection hfst with he
          subst he
          rfl
        | ok xs2 =>
          rw [h1, h2] at hfst
          simp [Except.map] at hfst
      | ok xs1 =>
        cases h2 : syncAll tree pm dir false with
        | error e2 =>
          rw [h1, h2] at hfst
          simp [Except.map] at hfst
        | ok xs2 =>
          rw [h1, h2] at hfst
          simp only [Except.map, Except.ok.injEq] at hfst
          have hfm : xs1.filterMap (fun r => r.1) = xs2.filterMap (fun r => r.1) :=
            filterMap_fst_eq xs1 xs2 hfst
          dsimp only
          simp only [Except.map, Except.ok.injEq, Prod.mk.injEq]
          rw [hfm]
  · intro res newTree h
    unfold syncJsrJson at h
    split at h
    · simp at h
    · rename_i pm hbm
      split at h
      · simp at h
      · rename_i results hres
        simp only [Except.ok.injEq, Prod.mk.injEq] at h
        obtain ⟨h1, h2⟩ := h
        rw [← h2]
        exact syncAll_true_tree tree pm dir results hres

/-! ### Skips, frame confinement, and non-string entries -/

/-- C8: a package whose primary or secondary manifest file is absent makes
syncPackage return null with the jsr.json file state untouched — never an
error — and readPackageInfo silently omits a directory whose package.json is
missing, so the index builder skips it. -/
theorem C8_missingManifestSkipped :
    (∀ (d : PkgDir) (pm : List (String × String)) (dir : String) (dry : Bool),
      d.packageJson = .absent ∨ d.jsrJson = .absent →
      syncPackage d pm dir dry = .ok (none, d.jsrJson))
    ∧ (∀ pkg dir : String, readPackageInfo pkg dir .absent = .ok none) := by
  constructor
  · rintro ⟨n, pjf, jjf⟩ pm dir dry h
    rcases h with h | h
    · cases pjf with
      | absent => cases jjf <;> rfl
      | malformed => exact absurd h (by simp)
      | valid pj => exact absurd h (by simp)
    · cases jjf with
      | absent => cases pjf <;> rfl
      | malformed => exact absurd h (by simp)
      | valid jj => exact absurd h (by simp)
  · intro pkg dir
    rfl

/-- Witness for C8 at concrete package states. -/
theorem C8_missingManifestSkipped_witness :
    syncPackage (PkgDir.mk "p" .absent (.valid (JsrJson.mk none (some "1.0.0") none [])))
      [] "pkgs" false
      = .ok (none, .valid (JsrJson.mk none (some "1.0.0") none []))
    ∧ readPackageInfo "p" "pkgs" .absent = .ok none :=
  ⟨C8_missingManifestSkipped.1
      (PkgDir.mk "p" .absent (.valid (JsrJson.mk none (some "1.0.0") none [])))
      [] "pkgs" false (Or.inl rfl),
   C8_missingManifestSkipped.2 "p" "pkgs"⟩

theorem assignImports_fst (updates : List ImportUpdate) (e : String × JsonVal) :
    (match updatesGet updates e.1 with
     | some t => (e.1, JsonVal.str t)
     | none => e).1 = e.1 := by
  cases updatesGet updates e.1 <;> rfl

theorem assignImports_keys (imports : List (String × JsonVal)) (updates : List ImportUpdate) :
    (assignImports imports updates).map Prod.fst = imports.map Prod.fst := by
  induction imports with
  | nil => rfl
  | cons e rest ih =>
    simp only [assignImports, List.map_cons] at ih ⊢
    rw [assignImports_fst updates e, ih]

/-- C9: for every package, the sync engine mutates at most the secondary
document's version field and the values of already-present imports keys: the
name and all other fields are unchanged, the imports key sequence (order
included) is unchanged — no key is added or removed — and at the batch level
every package's name and entire package.json are left untouched. -/
theorem C9_frameConfinement :
    (∀ (pkg : String) (pj : PackageJson) (jj : JsrJson) (pm : List (String × String)),
      (syncDocs pkg pj jj pm).newDoc.name = jj.name
      ∧ (syncDocs pkg pj jj pm).newDoc.others = jj.others
      ∧ Option.map (List.map Prod.fst) (syncDocs pkg pj jj pm).newDoc.imports
          = Option.map (List.map Prod.fst) jj.imports
      ∧ ((syncDocs pkg pj jj pm).newDoc.version = jj.version
         ∨ (syncDocs pkg pj jj pm).newDoc.version = pj.version))
    ∧ (∀ (tree : List PkgDir) (pm : List (String × String)) (dir : String) (dry : Bool)
        (res : List (Option ChangeRecord × PkgDir)),
      syncAll tree pm dir dry = .ok res →
      res.map (fun r => (r.2.name, r.2.packageJson))
        = tree.map (fun d => (d.name, d.packageJson))) := by
  constructor
  · intro pkg pj jj pm
    rcases hpv : pj.version with _ | v
    · rcases hji : jj.imports with _ | imps <;>
        simp [syncDocs, hpv, hji, assignImports_keys]
    · by_cases hc : v ≠ "" ∧ jj.version ≠ some v <;>
        rcases hji : jj.imports with _ | imps <;>
          simp [syncDocs, hpv, hji, hc, assignImports_keys]
  · intro tree pm dir dry res h
    induction tree generalizing res with
    | nil =>
      unfold syncAll at h
      simp only [Except.ok.injEq] at h
      subst h; rfl
    | cons d rest ih =>
      unfold syncAll at h
      split at h
      · simp at h
      · rename_i x hx
        split at h
        · simp at h
        · rename_i xs hxs
          simp only [Except.ok.injEq] at h
          subst h
          simp only [List.map_cons]
          rw [ih xs hxs]

/-- Witness for C9 at a concrete one-package batch. -/
theorem C9_frameConfinement_witness :
    ([(some (ChangeRecord.mk ["version: 1.0.0 → 2.0.0"] "p"),
       PkgDir.mk "p"
         (.valid (PackageJson.mk (some "p") (some "2.0.0") none))
         (.valid (JsrJson.mk none (some "2.0.0") none [])))]).map
        (fun r => (r.2.name, r.2.packageJson))
      = ([PkgDir.mk "p"
            (.valid (PackageJson.mk (some "p") (some "2.0.0") none))
            (.valid (JsrJson.mk none (some "1.0.0") none []))]).map
          (fun d => (d.name, d.packageJson)) :=
  C9_frameConfinement.2
    [PkgDir.mk "p"
      (.valid (PackageJson.mk (some "p") (some "2.0.0") none))
      (.valid (JsrJson.mk none (some "1.0.0") none []))]
    [("p", "2.0.0")] "pkgs" false
    [(some (ChangeRecord.mk ["version: 1.0.0 → 2.0.0"] "p"),
      PkgDir.mk "p"
        (.valid (PackageJson.mk (some "p") (some "2.0.0") none))
        (.valid (JsrJson.mk none (some "2.0.0") none [])))]
    (by decide)

theorem calculateImportUpdate_dep (dep : String) (v : JsonVal) (pm : List (String × String))
    (deps : Option (List (String × String))) (u : ImportUpdate)
    (h : calculateImportUpdate dep v pm deps = some u) : u.dependency = dep := by
  simp only [calculateImportUpdate] at h
  split at h
  · simp at h
  · rename_i p hp
    split at h
    · rename_i mv hm
      split at h
      · split at h
        · simp only [Option.some.injEq] at h
          rw [← h]
        · simp at h
      · split at h
        · rename_i pv hd
          split at h
          · split at h
            · simp only [Option.some.injEq] at h
              rw [← h]
            · simp at h
          · simp at h
        · simp at h
    · split at h
      · rename_i pv hd
        split at h
        · split at h
          · simp only [Option.some.injEq] at h
            rw [← h]
          · simp at h
        · simp at h
      · simp at h

theorem calculateImportUpdates_mem (imports : List (String × JsonVal))
    (pm : List (String × String)) (deps : Option (List (String × String)))
    (u : ImportUpdate) (h : u ∈ calculateImportUpdates imports pm deps) :
    ∃ e, e ∈ imports ∧ e.1 = u.dependency ∧ calculateImportUpdate e.1 e.2 pm deps = some u := by
  unfold calculateImportUpdates at h
  rw [List.mem_filterMap] at h
  obtain ⟨e, he, heq⟩ := h
  exact ⟨e, he, (calculateImportUpdate_dep e.1 e.2 pm deps u heq).symm, heq⟩

theorem nodupKeys_val_eq {b : Type} (l : List (String × b)) (k : String) (x y : b)
    (h : (l.map Prod.fst).Nodup) (hx : (k, x) ∈ l) (hy : (k, y) ∈ l) : x = y := by
  induction l with
  | nil => simp at hx
  | cons e rest ih =>
    rw [List.map_cons, List.nodup_cons] at h
    rcases List.mem_cons.mp hx with h1 | h1 <;> rcases List.mem_cons.mp hy with h2 | h2
    · simpa using congrArg Prod.snd (h1.trans h2.symm)
    · exfalso
      apply h.1
      rw [← h1]
      exact List.mem_map.mpr ⟨(k, y), h2, rfl⟩
    · exfalso
      apply h.1
      rw [← h2]
      exact List.mem_map.mpr ⟨(k, x), h1, rfl⟩
    · exact ih h.2 h1 h2

/-- C10: an imports entry whose value is not a string is treated like an
unparsable reference: calculateImportUpdate yields no update (hence no change
string and no error), no computed update ever targets its key, and the entry
survives the Object.assign step unchanged. -/
theorem C10_nonStringEntryUntouched :
    (∀ (dep : String) (t : Nat) (pm : List (String × String))
        (deps : Option (List (String × String))),
      calculateImportUpdate dep (.nonString t) pm deps = none)
    ∧ (∀ (imports : List (String × JsonVal)) (pm : List (String × String))
        (deps : Option (List (String × String))) (k : String) (t : Nat),
      (imports.map Prod.fst).Nodup → (k, JsonVal.nonString t) ∈ imports →
      (∀ u ∈ calculateImportUpdates imports pm deps, u.dependency ≠ k)
      ∧ (k, JsonVal.nonString t) ∈ assignImports imports (calculateImportUpdates imports pm deps)) := by
  have hnone : ∀ (dep : String) (t : Nat) (pm : List (String × String))
      (deps : Option (List (String × String))),
      calculateImportUpdate dep (.nonString t) pm deps = none := by
    intro dep t pm deps
    simp only [calculateImportUpdate]
    have hparse : parseJsrImport "" = none := by decide
    rw [hparse]
  refine ⟨hnone, ?_⟩
  intro imports pm deps k t hnd hmem
  have hnok : ∀ u ∈ calculateImportUpdates imports pm deps, u.dependency ≠ k := by
    intro u hu hkeq
    obtain ⟨e, he, hek, hcalc⟩ := calculateImportUpdates_mem imports pm deps u hu
    have he1 : e.1 = k := by rw [hek, hkeq]
    have hpe : (k, e.2) ∈ imports := by
      have h0 : (e.1, e.2) = e := rfl
      rw [he1] at h0
      rw [h0]
      exact he
    have he2 : e.2 = JsonVal.nonString t := nodupKeys_val_eq imports k e.2 (JsonVal.nonString t) hnd hpe hmem
    rw [he1, he2, hnone k t pm deps] at hcalc
    simp at hcalc
  constructor
  · exact hnok
  · have hfind : (calculateImportUpdates imports pm deps).reverse.find?
        (fun u => u.dependency == k) = none := by
      rw [List.find?_eq_none]
      intro u hu hbeq
      exact hnok u (List.mem_reverse.mp hu) (by simpa using hbeq)
    have hug : updatesGet (calculateImportUpdates imports pm deps) k = none := by
      unfold updatesGet
      rw [hfind]
      rfl
    unfold assignImports
    refine List.mem_map.mpr ⟨(k, JsonVal.nonString t), hmem, ?_⟩
    simp only [hug]

/-- Witness for C10 at a concrete non-string entry. -/
theorem C10_nonStringEntryUntouched_witness :
    calculateImportUpdate "a" (.nonString 0) [] none = none
    ∧ ((∀ u ∈ calculateImportUpdates [("a", JsonVal.nonString 0)] [] none, u.dependency ≠ "a")
       ∧ ("a", JsonVal.nonString 0) ∈ assignImports [("a", JsonVal.nonString 0)]
           (calculateImportUpdates [("a", JsonVal.nonString 0)] [] none)) :=
  ⟨C10_nonStringEntryUntouched.1 "a" 0 [] none,
   C10_nonStringEntryUntouched.2 [("a", JsonVal.nonString 0)] [] none "a" 0
     (by decide) (by decide)⟩

/-! ### Parse-error propagation -/

theorem readPackageInfo_ok_of_not_malformed (pkg dir : String) (file : FileState PackageJson)
    (h : file ≠ .malformed) : ∃ x, readPackageInfo pkg dir file = .ok x := by
  cases file with
  | absent => exact ⟨none, rfl⟩
  | malformed => exact absurd rfl h
  | valid pj =>
    simp only [readPackageInfo]
    cases pj.name with
    | none => exact ⟨none, rfl⟩
    | some n =>
      cases pj.version with
      | none => exact ⟨none, rfl⟩
      | some v =>
        by_cases hc : n ≠ "" ∧ v ≠ ""
        · exact ⟨some (n, v), by dsimp only; rw [if_pos hc]⟩
        · exact ⟨none, by dsimp only; rw [if_neg hc]⟩

theorem buildPackageMap_err_shape (tree : List PkgDir) (dir : String) (e : SyncError)
    (h : buildPackageMap tree dir = .error e) :
    ∃ d m, d ∈ tree ∧ e = .jsonParse m (pjPath dir d.name) := by
  induction tree with
  | nil =>
    unfold buildPackageMap at h
    simp at h
  | cons d rest ih =>
    unfold buildPackageMap at h
    split at h
    · rename_i e0 he0
      injection h with h1
      subst h1
      cases hpj : d.packageJson with
      | absent => rw [hpj] at he0; simp [readPackageInfo] at he0
      | malformed =>
        rw [hpj] at he0
        simp only [readPackageInfo] at he0
        injection he0 with he1
        exact ⟨d, "Invalid JSON in read package.json for " ++ d.name,
          List.mem_cons_self d rest, he1.symm⟩
      | valid pj =>
        obtain ⟨x, hx⟩ := readPackageInfo_ok_of_not_malformed d.name dir d.packageJson
          (by rw [hpj]; simp)
        rw [hx] at he0
        simp at he0
    · rename_i i hi
      split at h
      · rename_i e1 he1
        injection h with h1
        subst h1
        obtain ⟨d2, m, hd2, hshape⟩ := ih he1
        exact ⟨d2, m, List.mem_cons_of_mem d hd2, hshape⟩
      · simp at h

theorem buildPackageMap_err_of (tree : List PkgDir) (dir : String) (d0 : PkgDir)
    (hd0 : d0 ∈ tree) (hmal : d0.packageJson = .malformed) :
    ∃ e, buildPackageMap tree dir = .error e := by
  induction tree with
  | nil => simp at hd0
  | cons d rest ih =>
    rcases List.mem_cons.mp hd0 with rfl | hd0'
    · refine ⟨.jsonParse ("Invalid JSON in read package.json for " ++ d0.name)
          (pjPath dir d0.name), ?_⟩
      unfold buildPackageMap
      have hr : readPackageInfo d0.name dir d0.packageJson
          = .error (.jsonParse ("Invalid JSON in read package.json for " ++ d0.name)
              (pjPath dir d0.name)) := by
        rw [hmal]
        rfl
      simp only [hr]
    · by_cases hh : d.packageJson = .malformed
      · refine ⟨.jsonParse ("Invalid JSON in read package.json for " ++ d.name)
            (pjPath dir d.name), ?_⟩
        unfold buildPackageMap
        have hr : readPackageInfo d.name dir d.packageJson
            = .error (.jsonParse ("Invalid JSON in read package.json for " ++ d.name)
                (pjPath dir d.name)) := by
          rw [hh]
          rfl
        simp only [hr]
      · obtain ⟨x, hx⟩ := readPackageInfo_ok_of_not_malformed d.name dir d.packageJson hh
        obtain ⟨e, he⟩ := ih hd0'
        refine ⟨e, ?_⟩
        unfold buildPackageMap
        simp only [hx, he]

theorem buildPackageMap_ok_of (tree : List PkgDir) (dir : String)
    (h : ∀ d ∈ tree, d.packageJson ≠ .malformed) :
    ∃ pm, buildPackageMap tree dir = .ok pm := by
  induction tree with
  | nil => exact ⟨[], rfl⟩
  | cons d rest ih =>
    obtain ⟨x, hx⟩ := readPackageInfo_ok_of_not_malformed d.name dir d.packageJson (h d (by simp))
    obtain ⟨pm, hpm⟩ := ih (fun d2 hd2 => h d2 (by simp [hd2]))
    cases x with
    | some y =>
      refine ⟨y :: pm, ?_⟩
      unfold buildPackageMap
      simp only [hx, hpm]
    | none =>
      refine ⟨pm, ?_⟩
      unfold buildPackageMap
      simp only [hx, hpm]

theorem syncPackage_err_of_malformed_jsr (d : PkgDir) (pm : List (String × String))
    (dir : String) (dry : Bool) (hjj : d.jsrJson = .malformed) (hpj : d.packageJson ≠ .absent) :
    syncPackage d pm dir dry
      = .error (.jsonParse ("Invalid JSON in package files for " ++ d.name) (pjPath dir d.name)) := by
  obtain ⟨n, pjf, jjf⟩ := d
  cases jjf with
  | malformed =>
    cases pjf with
    | absent => exact absurd rfl hpj
    | malformed => rfl
    | valid pj => rfl
  | absent => exact absurd hjj (by simp)
  | valid jj => exact absurd hjj (by simp)

theorem syncPackage_ok_of (d : PkgDir) (pm : List (String × String)) (dir : String) (dry : Bool)
    (hpj : d.packageJson ≠ .malformed) (hjj : ¬(d.jsrJson = .malformed ∧ d.packageJson ≠ .absent)) :
    ∃ x, syncPackage d pm dir dry = .ok x := by
  obtain ⟨n, pjf, jjf⟩ := d
  cases pjf with
  | absent => cases jjf <;> exact ⟨_, rfl⟩
  | malformed => exact absurd rfl hpj
  | valid pj =>
    cases jjf with
    | absent => exact ⟨_, rfl⟩
    | malformed => exact absurd ⟨rfl, by simp⟩ hjj
    | valid jj =>
      simp only [syncPackage]
      by_cases hc : (syncDocs n pj jj pm).changes = []
      · exact ⟨_, by rw [if_pos hc]⟩
      · exact ⟨_, by rw [if_neg hc]⟩

theorem syncPackage_err_shape (d : PkgDir) (pm : List (String × String)) (dir : String)
    (dry : Bool) (e : SyncError) (h : syncPackage d pm dir dry = .error e) :
    e = .jsonParse ("Invalid JSON in package files for " ++ d.name) (pjPath dir d.name) := by
  obtain ⟨n, pjf, jjf⟩ := d
  cases pjf with
  | absent => cases jjf <;> simp [syncPackage] at h
  | malformed =>
    cases jjf with
    | absent => simp [syncPackage] at h
    | malformed =>
      simp only [syncPackage] at h
      injection h with h1
      exact h1.symm
    | valid jj =>
      simp only [syncPackage] at h
      injection h with h1
      exact h1.symm
  | valid pj =>
    cases jjf with
    | absent => simp [syncPackage] at h
    | malformed =>
      simp only [syncPackage] at h
      injection h with h1
      exact h1.symm
    | valid jj =>
      simp only [syncPackage] at h
      split at h <;> simp at h

theorem syncAll_err_shape (tree : List PkgDir) (pm : List (String × String)) (dir : String)
    (dry : Bool) (e : SyncError) (h : syncAll tree pm dir dry = .error e) :
    ∃ d, d ∈ tree
      ∧ e = .jsonParse ("Invalid JSON in package files for " ++ d.name) (pjPath dir d.name) := by
  induction tree with
  | nil =>
    unfold syncAll at h
    simp at h
  | cons d rest ih =>
    unfold syncAll at h
    split at h
    · rename_i e0 he0
      injection h with h1
      subst h1
      exact ⟨d, List.mem_cons_self d rest, syncPackage_err_shape d pm dir dry e0 he0⟩
    · rename_i x hx
      split at h
      · rename_i e1 he1
        injection h with h1
        subst h1
        obtain ⟨d2, hd2, hshape⟩ := ih he1
        exact ⟨d2, List.mem_cons_of_mem d hd2, hshape⟩
      · simp at h

theorem syncAll_err_of (tree : List PkgDir) (pm : List (String × String)) (dir : String)
    (dry : Bool) (d0 : PkgDir) (hd0 : d0 ∈ tree)
    (hpjall : ∀ d ∈ tree, d.packageJson ≠ .malformed)
    (hbad : d0.jsrJson = .malformed ∧ d0.packageJson ≠ .absent) :
    ∃ e, syncAll tree pm dir dry = .error e := by
  induction tree with
  | nil => simp at hd0
  | cons d rest ih =>
    rcases List.mem_cons.mp hd0 with rfl | hd0'
    · have herr := syncPackage_err_of_malformed_jsr d0 pm dir dry hbad.1 hbad.2
      refine ⟨.jsonParse ("Invalid JSON in package files for " ++ d0.name)
          (pjPath dir d0.name), ?_⟩
      unfold syncAll
      simp only [herr]
    · by_cases hh : d.jsrJson = .malformed ∧ d.packageJson ≠ .absent
      · have herr := syncPackage_err_of_malformed_jsr d pm dir dry hh.1 hh.2
        refine ⟨.jsonParse ("Invalid JSON in package files for " ++ d.name)
            (pjPath dir d.name), ?_⟩
        unfold syncAll
        simp only [herr]
      · obtain ⟨x, hx⟩ := syncPackage_ok_of d pm dir dry (hpjall d (by simp)) hh
        obtain ⟨e, he⟩ := ih hd0' (fun d2 hd2 => hpjall d2 (by simp [hd2]))
        refine ⟨e, ?_⟩
        unfold syncAll
        simp only [hx, he]

theorem syncJsrJson_bpErr (tree : List PkgDir) (dir : String) (dry : Bool) (e : SyncError)
    (h : buildPackageMap tree dir = .error e) : syncJsrJson tree dir dry = .error e := by
  unfold syncJsrJson
  rw [h]

theorem syncJsrJson_saErr (tree : List PkgDir) (dir : String) (dry : Bool)
    (pm : List (String × String)) (e : SyncError) (hbm : buildPackageMap tree dir = .ok pm)
    (h : syncAll tree pm dir dry = .error e) : syncJsrJson tree dir dry = .error e := by
  unfold syncJsrJson
  rw [hbm]
  dsimp only
  rw [h]

/-- C5, counterexample: with a valid package.json and a malformed jsr.json
the batch aborts with a JsonParseError whose path names the package.json —
not the malformed secondary manifest — and a package whose package.json is
absent and whose jsr.json is malformed is skipped silently with no error. -/
theorem C5_counterexample_wrongPathAndSilentSkip :
    syncJsrJson
        [PkgDir.mk "p" (.valid (PackageJson.mk (some "p") (some "1.0.0") none)) .malformed]
        "pkgs" false
      = .error (.jsonParse "Invalid JSON in package files for p" (pjPath "pkgs" "p"))
    ∧ pjPath "pkgs" "p" ≠ jjPath "pkgs" "p"
    ∧ syncJsrJson [PkgDir.mk "q" .absent .malformed] "pkgs" false
      = .ok (SyncResult.mk 0 [], [PkgDir.mk "q" .absent .malformed]) :=
  ⟨by decide, by decide, by decide⟩

/-- C5, amended: a malformed manifest aborts the whole batch with a
JsonParseError whose path field names a package's primary manifest path
(package.json) — for a malformed secondary manifest the reported path is the
package's primary manifest, not the offending file — except that a package
whose primary manifest is absent is silently skipped even when its secondary
manifest is malformed. -/
theorem C5_amended_parseErrorAborts :
    (∀ (tree : List PkgDir) (dir : String) (dry : Bool),
      (∃ d ∈ tree, d.packageJson = .malformed
        ∨ (d.jsrJson = .malformed ∧ d.packageJson ≠ .absent)) →
      ∃ m d2, d2 ∈ tree ∧ syncJsrJson tree dir dry = .error (.jsonParse m (pjPath dir d2.name)))
    ∧ (∀ (n : String) (pm : List (String × String)) (dir : String) (dry : Bool),
      syncPackage (PkgDir.mk n .absent .malformed) pm dir dry = .ok (none, .malformed)) := by
  constructor
  · intro tree dir dry hex
    by_cases hall : ∀ d ∈ tree, d.packageJson ≠ .malformed
    · obtain ⟨d0, hd0, hcase⟩ := hex
      rcases hcase with hcase | hcase
      · exact absurd hcase (hall d0 hd0)
      · obtain ⟨pm, hpm⟩ := buildPackageMap_ok_of tree dir hall
        obtain ⟨e, he⟩ := syncAll_err_of tree pm dir dry d0 hd0 hall hcase
        obtain ⟨d2, hd2, hshape⟩ := syncAll_err_shape tree pm dir dry e he
        refine ⟨"Invalid JSON in package files for " ++ d2.name, d2, hd2, ?_⟩
        rw [syncJsrJson_saErr tree dir dry pm e hpm he, hshape]
    · push_neg at hall
      obtain ⟨d0, hd0, hmal⟩ := hall
      obtain ⟨e, he⟩ := buildPackageMap_err_of tree dir d0 hd0 hmal
      obtain ⟨d2, m, hd2, hshape⟩ := buildPackageMap_err_shape tree dir e he
      refine ⟨m, d2, hd2, ?_⟩
      rw [syncJsrJson_bpErr tree dir dry e he, hshape]
  · intro n pm dir dry
    rfl

/-- Witness for the amended C5 at a concrete malformed secondary manifest. -/
theorem C5_amended_parseErrorAborts_witness :
    ∃ m d2,
      d2 ∈ [PkgDir.mk "p" (.valid (PackageJson.mk (some "p") (some "1.0.0") none)) .malformed]
      ∧ syncJsrJson
          [PkgDir.mk "p" (.valid (PackageJson.mk (some "p") (some "1.0.0") none)) .malformed]
          "pkgs" false
        = .error (.jsonParse m (pjPath "pkgs" d2.name)) :=
  C5_amended_parseErrorAborts.1
    [PkgDir.mk "p" (.valid (PackageJson.mk (some "p") (some "1.0.0") none)) .malformed]
    "pkgs" false
    ⟨PkgDir.mk "p" (.valid (PackageJson.mk (some "p") (some "1.0.0") none)) .malformed,
      by decide, Or.inr ⟨rfl, by decide⟩⟩

/-- Witness for C4: a concrete dry run succeeds and leaves the tree
unchanged. -/
theorem C4_dryRunFrame_witness :
    [PkgDir.mk "p" (.valid (PackageJson.mk (some "p") (some "2.0.0") none))
        (.valid (JsrJson.mk none (some "1.0.0") none []))]
      = [PkgDir.mk "p" (.valid (PackageJson.mk (some "p") (some "2.0.0") none))
          (.valid (JsrJson.mk none (some "1.0.0") none []))] :=
  (C4_dryRunFrame
      [PkgDir.mk "p" (.valid (PackageJson.mk (some "p") (some "2.0.0") none))
        (.valid (JsrJson.mk none (some "1.0.0") none []))] "d").2
    (SyncResult.mk 1 [ChangeRecord.mk ["version: 1.0.0 → 2.0.0"] "p"])
    [PkgDir.mk "p" (.valid (PackageJson.mk (some "p") (some "2.0.0") none))
      (.valid (JsrJson.mk none (some "1.0.0") none []))]
    (by decide)

/-- C3: the batch sync is not idempotent, exposing a slip in the
dependencies fallback of calculateImportUpdate: running the sync to
completion on a tree whose package.json pins an external import with a
`>=` range and then running it again stages a fresh change on the second
run (syncedCount 1, not 0), prepending another `>=` to the reference each
time. -/
theorem C3_secondRunResyncs :
    syncJsrJson
        [PkgDir.mk "p"
          (.valid (PackageJson.mk (some "p") (some "1.0.0") (some [("@a/b", ">=2.0.0")])))
          (.valid (JsrJson.mk none (some "1.0.0")
            (some [("@a/b", JsonVal.str "jsr:@a/b@1.0.0")]) []))]
        "pkgs" false
      = .ok (SyncResult.mk 1
            [ChangeRecord.mk ["imports[@a/b]: jsr:@a/b@1.0.0 → jsr:@a/b@>=2.0.0"] "p"],
          [PkgDir.mk "p"
            (.valid (PackageJson.mk (some "p") (some "1.0.0") (some [("@a/b", ">=2.0.0")])))
            (.valid (JsrJson.mk none (some "1.0.0")
              (some [("@a/b", JsonVal.str "jsr:@a/b@>=2.0.0")]) []))])
    ∧ syncJsrJson
        [PkgDir.mk "p"
          (.valid (PackageJson.mk (some "p") (some "1.0.0") (some [("@a/b", ">=2.0.0")])))
          (.valid (JsrJson.mk none (some "1.0.0")
            (some [("@a/b", JsonVal.str "jsr:@a/b@>=2.0.0")]) []))]
        "pkgs" false
      = .ok (SyncResult.mk 1
            [ChangeRecord.mk ["imports[@a/b]: jsr:@a/b@>=2.0.0 → jsr:@a/b@>=>=2.0.0"] "p"],
          [PkgDir.mk "p"
            (.valid (PackageJson.mk (some "p") (some "1.0.0") (some [("@a/b", ">=2.0.0")])))
            (.valid (JsrJson.mk none (some "1.0.0")
              (some [("@a/b", JsonVal.str "jsr:@a/b@>=>=2.0.0")]) []))])
    ∧ (1 : Nat) ≠ 0 :=
  ⟨by decide, by decide, by decide⟩
